import Mathlib

/-!
Verification of the os-terminal-bare console host against its design
specification.

The development shallowly embeds the decision logic of the two source
files:

* `src/main.rs` — the PTY reader thread's reaction to each read outcome,
  the keyboard-event translation into `handle_keyboard` byte calls, and
  the flush-scheduler loop body (frame pacing and signal coalescing);
* `src/backends/fbdev.rs` — `Display::draw_pixel` over the memory-mapped
  framebuffer, modelled as a byte list.

Machine integers are modelled as `Nat` with explicit `% 2^w` where the
source performs fixed-width arithmetic; the framebuffer mapping is a
`List Nat` of bytes; the native byte order of the target is taken to be
little-endian.
-/

namespace OsTerminalBare

/-! ## PTY reader thread (src/main.rs, lines 65–83)

The reader thread loops on `read(master, &mut temp)` and reacts to the
outcome:

* `Ok(n)` with `n > 0`: process the chunk, send a flush signal, and
  continue; if the flush channel send fails, break out of the loop;
* `Ok(_)` (i.e. `n = 0`, EOF): break out of the loop;
* `Err(Errno::EIO)`: `process::exit(0)`;
* `Err(e)` for any other errno: print a diagnostic and `process::exit(1)`.
-/

/-- Outcome of one blocking `read` on the PTY master: `ok n` for a
successful read of `n` bytes, `err e` for a failure with errno `e`. -/
inductive ReadResult where
  | ok (n : Nat)
  | err (errno : Nat)
deriving DecidableEq

/-- What one iteration of the reader loop does with control flow:
continue looping, break out of the loop (the thread ends, the process
keeps running), or terminate the whole process with an exit code. -/
inductive ReaderAction where
  | next
  | breakLoop
  | exitWith (code : Nat)
deriving DecidableEq

/-- The Linux errno value of EIO. -/
def eioCode : Nat := 5

/-- Control-flow decision of one reader-loop iteration, from the match in
`src/main.rs` lines 68–81.  `sendOk` is whether the flush-channel send in
the `Ok(n), n > 0` arm succeeds. -/
def readerStep (r : ReadResult) (sendOk : Bool) : ReaderAction :=
  match r with
  | .ok n => if n > 0 then (if sendOk then .next else .breakLoop) else .breakLoop
  | .err e => if e = eioCode then .exitWith 0 else .exitWith 1

/-! ## Keyboard translation (src/main.rs, lines 126–150)

For each key event the loop looks up `KeyMap::from_key_mapping`; on a
miss it `continue`s.  On a hit it takes `keymap.win : u16`, adds `0x80`
when the event value is `0` (release), emits `0xE0` first when the
adjusted code is `≥ 0xE000` (subtracting the bias), and finally emits
the code truncated to a byte (`as u8`). -/

/-- The press/release adjustment of `src/main.rs` lines 137–140: the
`u16` scancode from the key map, plus `0x80` when the event value is `0`
(a release).  `u16` addition is modelled with an explicit `% 2^16`. -/
def adjustScancode (win v : Nat) : Nat :=
  if v = 0 then (win + 0x80) % 65536 else win

/-- The bytes passed to `handle_keyboard`, in order, for an adjusted
scancode (`src/main.rs` lines 142–148): an `0xE0` escape then the biased
low byte for extended codes, else the single truncated byte.  `as u8`
truncation is modelled by `% 256`. -/
def emittedBytes (scancode : Nat) : List Nat :=
  if 0xe000 ≤ scancode then [0xe0, (scancode - 0xe000) % 256]
  else [scancode % 256]

/-- Full translation of a mapped key event (map value `win`, event value
`v`) into the ordered list of `handle_keyboard` byte arguments. -/
def translate (win v : Nat) : List Nat :=
  emittedBytes (adjustScancode win v)

/-- Scancode produced for a press event (evdev value `1`). -/
def pressScancode (win : Nat) : Nat := adjustScancode win 1

/-- Scancode produced for a release event (evdev value `0`). -/
def releaseScancode (win : Nat) : Nat := adjustScancode win 0

/-- Observable effect of handling one key event in the input loop:
the `handle_keyboard` byte calls made, the number of flush signals
sent, and whether the loop was interrupted by an error. -/
structure KeyEventResult where
  keyboardBytes : List Nat
  flushSignals : Nat
  aborted : Bool
deriving DecidableEq

/-- One key event of the input loop (`src/main.rs` lines 132–149).
`lookup` is the result of the scancode-table lookup
(`KeyMap::from_key_mapping`), `none` on a miss — in which case the loop
`continue`s with no terminal call and no error. -/
def keyEventStep (lookup : Option Nat) (v : Nat) : KeyEventResult :=
  match lookup with
  | none => ⟨[], 0, false⟩
  | some win => ⟨translate win v, 1, false⟩

/-! ## Flush scheduler (src/main.rs, lines 102–122)

The flush thread blocks in `recv`; on receiving a signal it computes the
time since the last flush, sleeps out the remainder of a 16 ms frame
interval if needed, drains every pending signal with `try_recv`, flushes
once, and records the new flush time. -/

/-- The frame interval of the flush thread, in milliseconds. -/
def frameInterval : Nat := 16

/-- Time (ms, on a monotonic clock) at which the flush happens when the
thread wakes at `now` with the previous flush at `lastFlush`: if less
than a frame interval has elapsed, the thread sleeps the remainder
first (`src/main.rs` lines 111–115). -/
def flushAt (lastFlush now : Nat) : Nat :=
  if now - lastFlush < frameInterval then now + (frameInterval - (now - lastFlush))
  else now

/-- State of the flush-scheduler loop: the time of the last flush, the
number of redraw signals pending in the channel, and the number of
flushes performed so far. -/
structure SchedState where
  lastFlush : Nat
  pending : Nat
  flushes : Nat
deriving DecidableEq

/-- One iteration of the flush loop waking at time `now`
(`src/main.rs` lines 106–121): with no pending signal `recv` blocks
(`none`); otherwise the iteration consumes one signal, paces the frame,
drains all remaining pending signals (`while let Ok(_) = try_recv`),
and performs exactly one flush, recording its time. -/
def schedStep (s : SchedState) (now : Nat) : Option SchedState :=
  match s.pending with
  | 0 => none
  | _ + 1 => some ⟨flushAt s.lastFlush now, 0, s.flushes + 1⟩

/-! ## Framebuffer display (src/backends/fbdev.rs)

`draw_pixel` packs the colour as `(r as u32) << 16 | (g as u32) << 8 |
b as u32`, views the mapping as 4-byte chunks, and copies the pixel's
native-endian bytes into chunk `y * width + x`. -/

/-- The packed pixel of `fbdev.rs` line 31:
`(rgb.0 as u32) << 16 | (rgb.1 as u32) << 8 | rgb.2 as u32`. -/
def pixelValue (r g b : Nat) : Nat :=
  r <<< 16 ||| g <<< 8 ||| b

/-- `u32::to_ne_bytes` on the (little-endian) target: the four bytes of
`v`, least significant first. -/
def toNeBytes (v : Nat) : List Nat :=
  [v % 256, v / 256 % 256, v / 65536 % 256, v / 16777216 % 256]

/-- Byte offset of the 4-byte store of `draw_pixel` for pixel `(x, y)`:
chunk index `y * width + x` times 4 bytes per chunk. -/
def pixelOffset (width x y : Nat) : Nat := (y * width + x) * 4

/-- `slice::copy_from_slice` into `buf[off .. off + src.length]`. -/
def copyFromSlice (buf : List Nat) (off : Nat) (src : List Nat) : List Nat :=
  buf.take off ++ src ++ buf.drop (off + src.length)

/-- `Display::draw_pixel` (`fbdev.rs` lines 30–34) over the mapped
buffer `buf` (a list of bytes): store the native-endian bytes of the
packed pixel at the chunk for `(x, y)`. -/
def draw_pixel (width : Nat) (buf : List Nat) (x y r g b : Nat) : List Nat :=
  copyFromSlice buf (pixelOffset width x y) (toNeBytes (pixelValue r g b))

/-! ## Helper lemmas -/

theorem flushAt_ge (l now : Nat) (hl : l ≤ now) :
    l + frameInterval ≤ flushAt l now := by
  unfold flushAt frameInterval
  split <;> omega

theorem copyFromSlice_length (buf src : List Nat) (off : Nat)
    (h : off + src.length ≤ buf.length) :
    (copyFromSlice buf off src).length = buf.length := by
  unfold copyFromSlice
  simp only [List.length_append, List.length_take, List.length_drop]
  omega

theorem copyFromSlice_getD_inside (buf src : List Nat) (off j : Nat)
    (hoff : off ≤ buf.length) (hj : j < src.length) :
    (copyFromSlice buf off src).getD (off + j) 0 = src.getD j 0 := by
  unfold copyFromSlice
  have htake : (buf.take off).length = off := by
    simp only [List.length_take]
    omega
  have hts : (buf.take off ++ src).length = off + src.length := by
    simp only [List.length_append, htake]
  rw [List.getD_append _ _ _ _ (by omega)]
  rw [List.getD_append_right _ _ _ _ (by omega), htake,
    Nat.add_sub_cancel_left]

theorem copyFromSlice_getD_outside (buf src : List Nat) (off i : Nat)
    (hoff : off ≤ buf.length)
    (hi : i < off ∨ off + src.length ≤ i) :
    (copyFromSlice buf off src).getD i 0 = buf.getD i 0 := by
  unfold copyFromSlice
  have htake : (buf.take off).length = off := by
    simp only [List.length_take]
    omega
  have hts : (buf.take off ++ src).length = off + src.length := by
    simp only [List.length_append, htake]
  rcases hi with hi | hi
  · rw [List.getD_append _ _ _ _ (by omega)]
    rw [List.getD_append _ _ _ _ (by omega)]
    simp only [List.getD_eq_getElem?_getD]
    rw [List.getElem?_take_of_lt hi]
  · rw [List.getD_append_right _ _ _ _ (by omega), hts]
    simp only [List.getD_eq_getElem?_getD, List.getElem?_drop]
    have hidx : off + src.length + (i - (off + src.length)) = i := by omega
    rw [hidx]

theorem pixelOffset_bound (width height x y : Nat)
    (hx : x < width) (hy : y < height) :
    pixelOffset width x y + 4 ≤ width * height * 4 := by
  have h1 : y * width + x + 1 ≤ height * width := by
    calc y * width + x + 1 ≤ y * width + width := by omega
    _ = (y + 1) * width := by ring
    _ ≤ height * width := Nat.mul_le_mul_right width hy
  have h2 : width * height = height * width := Nat.mul_comm width height
  unfold pixelOffset
  omega

theorem pixelValue_eq (r g b : Nat) (hg : g < 256)
    (hb : b < 256) : pixelValue r g b = r * 65536 + g * 256 + b := by
  unfold pixelValue
  rw [Nat.shiftLeft_eq, Nat.shiftLeft_eq]
  have h1 : g * 2 ^ 8 < 2 ^ 16 := by omega
  have h2 : r * 2 ^ 16 ||| g * 2 ^ 8 = r * 2 ^ 16 + g * 2 ^ 8 := by
    have := Nat.mul_add_lt_is_or h1 r
    rw [Nat.mul_comm (2 ^ 16) r] at this
    omega
  have h3 : 2 ^ 8 * (2 ^ 8 * r + g) + b = 2 ^ 8 * (2 ^ 8 * r + g) ||| b :=
    Nat.mul_add_lt_is_or (by omega) (2 ^ 8 * r + g)
  rw [h2]
  have h4 : r * 2 ^ 16 + g * 2 ^ 8 = 2 ^ 8 * (2 ^ 8 * r + g) := by ring
  rw [h4, ← h3]
  ring

/-! ## Claims -/

/-- Claim C1, counterexample: on a PTY read returning 0 (graceful EOF),
the reader step does NOT terminate the process with exit code 0. -/
theorem readerStep_eof_not_exit_zero :
    readerStep (ReadResult.ok 0) true ≠ ReaderAction.exitWith 0 := by
  decide

/-- Claim C1, amended: on a PTY read returning 0 (graceful EOF), the
reader thread merely breaks out of its read loop — the process is not
terminated through this path — while a read failing with EIO terminates
the process with exit code 0. -/
theorem readerStep_eof_breaks (s : Bool) :
    readerStep (ReadResult.ok 0) s = ReaderAction.breakLoop ∧
    readerStep (ReadResult.err eioCode) s = ReaderAction.exitWith 0 := by
  cases s <;> exact ⟨rfl, rfl⟩

/-- Claim C2: every failing PTY read terminates the process, and the
exit code is 0 exactly when the errno is EIO — any other read error
exits with a nonzero code. -/
theorem readerStep_error_exit_code (e : Nat) (s : Bool) :
    ∃ c, readerStep (ReadResult.err e) s = ReaderAction.exitWith c ∧
      (c = 0 ↔ e = eioCode) := by
  by_cases h : e = eioCode
  · exact ⟨0, by simp [readerStep, h], by simp [h]⟩
  · exact ⟨1, by simp [readerStep, h], by simp [h]⟩

/-- Claim C3: when the press/release-adjusted scancode is at least
0xE000, exactly two `handle_keyboard` calls are made — 0xE0 first, then
the low byte of the scancode minus the 0xE000 bias; below 0xE000,
exactly one call with the (byte-truncated) adjusted scancode. -/
theorem translate_extended_split (win v : Nat) :
    (0xe000 ≤ adjustScancode win v →
      translate win v = [0xe0, (adjustScancode win v - 0xe000) % 256]) ∧
    (adjustScancode win v < 0xe000 →
      translate win v = [adjustScancode win v % 256]) := by
  constructor
  · intro h
    simp [translate, emittedBytes, h]
  · intro h
    simp [translate, emittedBytes, Nat.not_le.mpr h]

/-- Witness for C3 at concrete inputs: left-Win press (Windows scancode
0xE05B) produces the two calls 0xE0, 0x5B; the "A" key release
(0x1E + 0x80) produces the single call 0x9E. -/
theorem translate_extended_split_witness :
    translate 0xe05b 1 = [0xe0, 0x5b] ∧ translate 0x1e 0 = [0x9e] := by
  constructor
  · have h := (translate_extended_split 0xe05b 1).1 (by decide)
    exact h.trans (by decide)
  · have h := (translate_extended_split 0x1e 0).2 (by decide)
    exact h.trans (by decide)

/-- Claim C4: for any mapped key whose scancode does not overflow the
`u16` addition, the release scancode equals the press scancode plus
0x80. -/
theorem releaseScancode_eq_press_add (win : Nat)
    (h : win + 0x80 < 65536) :
    releaseScancode win = pressScancode win + 0x80 := by
  unfold releaseScancode pressScancode adjustScancode
  simp [Nat.mod_eq_of_lt h]

/-- Witness for C4 at the "A" key (Windows scancode 0x1E). -/
theorem releaseScancode_eq_press_add_witness :
    0x1e + 0x80 < 65536 ∧ releaseScancode 0x1e = pressScancode 0x1e + 0x80 :=
  ⟨by decide, releaseScancode_eq_press_add 0x1e (by decide)⟩

/-- Claim C8: a key event whose hardware code has no scancode mapping is
silently dropped — no `handle_keyboard` call, no flush signal, no
error, the loop continues. -/
theorem unmapped_key_dropped (v : Nat) :
    keyEventStep none v = ⟨[], 0, false⟩ := rfl

/-- Claim C9: any event value other than 0 (in particular the evdev
auto-repeat value 2) is translated exactly like a press — the 0x80
release bias is added only when the value is 0, so auto-repeat delivers
the make code. -/
theorem nonzero_value_translates_as_press (win v : Nat) (h : v ≠ 0) :
    adjustScancode win v = win ∧ translate win v = translate win 1 := by
  constructor
  · simp [adjustScancode, h]
  · simp [translate, adjustScancode, h]

/-- Witness for C9: an auto-repeat (value 2) of the "A" key behaves as
a press. -/
theorem nonzero_value_translates_as_press_witness :
    (2 : Nat) ≠ 0 ∧
      (adjustScancode 0x1e 2 = 0x1e ∧ translate 0x1e 2 = translate 0x1e 1) :=
  ⟨by decide, nonzero_value_translates_as_press 0x1e 2 (by decide)⟩

/-- Claim C5: when at least one redraw signal is pending — however many
were delivered before the iteration — one iteration of the flush loop
performs exactly one flush and drains every pending signal (the drain
happens after the pacing sleep, before the single flush, per the
definition of `schedStep`). -/
theorem schedStep_coalesces (l n f now : Nat) (h : 1 ≤ n) :
    schedStep ⟨l, n, f⟩ now = some ⟨flushAt l now, 0, f + 1⟩ := by
  obtain ⟨m, rfl⟩ : ∃ m, n = m + 1 := ⟨n - 1, by omega⟩
  rfl

/-- Witness for C5: five pending signals yield exactly one flush and an
empty queue. -/
theorem schedStep_coalesces_witness :
    1 ≤ 5 ∧ schedStep ⟨100, 5, 7⟩ 103 = some ⟨flushAt 100 103, 0, 8⟩ :=
  ⟨by decide, schedStep_coalesces 100 5 7 103 (by decide)⟩

/-- Claim C6: any flush performed by an iteration that wakes at time
`now` (on a monotonic clock, so `lastFlush ≤ now`) happens no sooner
than one frame interval (16 ms) after the previous flush: the iteration
sleeps out the remainder of the interval before redrawing. -/
theorem schedStep_frame_spacing (l n f now : Nat) (hl : l ≤ now)
    (s2 : SchedState) (hs : schedStep ⟨l, n, f⟩ now = some s2) :
    l + frameInterval ≤ s2.lastFlush := by
  obtain ⟨lf, p, fl⟩ := s2
  rcases n with _ | m
  · exact absurd hs (by simp [schedStep])
  · simp only [schedStep, Option.some.injEq, SchedState.mk.injEq] at hs
    obtain ⟨h1, -, -⟩ := hs
    rw [← h1]
    exact flushAt_ge l now hl

/-- Witness for C6: two back-to-back signals with the previous flush at
time 0 and an immediate wake at time 0 produce the next flush at time
16, a full frame interval later. -/
theorem schedStep_frame_spacing_witness :
    schedStep ⟨0, 2, 0⟩ 0 = some ⟨16, 0, 1⟩ ∧
      0 + frameInterval ≤ (SchedState.mk 16 0 1).lastFlush :=
  ⟨rfl, schedStep_frame_spacing 0 2 0 0 (Nat.le_refl 0) ⟨16, 0, 1⟩ rfl⟩

/-- Claim C7: for in-bounds `(x, y)` on a buffer of `width * height * 4`
bytes, `draw_pixel` performs a single 4-byte store at byte offset
`(y * width + x) * 4` — the buffer keeps its length, the four bytes at
that offset become the native-endian bytes of the packed pixel, every
other byte is unchanged — and the offset lands at 0 for `(0, 0)` and at
`(height * width - 1) * 4` for `(width - 1, height - 1)`. -/
theorem draw_pixel_offset_store (width height x y r g b : Nat)
    (buf : List Nat) (hlen : buf.length = width * height * 4)
    (hx : x < width) (hy : y < height) :
    (draw_pixel width buf x y r g b).length = buf.length ∧
    (∀ j, j < 4 →
      (draw_pixel width buf x y r g b).getD (pixelOffset width x y + j) 0 =
        (toNeBytes (pixelValue r g b)).getD j 0) ∧
    (∀ i, i < buf.length →
      (i < pixelOffset width x y ∨ pixelOffset width x y + 4 ≤ i) →
      (draw_pixel width buf x y r g b).getD i 0 = buf.getD i 0) ∧
    pixelOffset width 0 0 = 0 ∧
    pixelOffset width (width - 1) (height - 1) = (height * width - 1) * 4 := by
  have hbound := pixelOffset_bound width height x y hx hy
  have hsrc : (toNeBytes (pixelValue r g b)).length = 4 := rfl
  have hoff : pixelOffset width x y ≤ buf.length := by omega
  unfold draw_pixel
  refine ⟨?_, ?_, ?_, ?_, ?_⟩
  · exact copyFromSlice_length _ _ _ (by rw [hsrc]; omega)
  · intro j hj
    exact copyFromSlice_getD_inside _ _ _ _ hoff (by rw [hsrc]; omega)
  · intro i hi1 hi2
    exact copyFromSlice_getD_outside _ _ _ _ hoff (by rw [hsrc]; omega)
  · simp [pixelOffset]
  · obtain ⟨h2, rfl⟩ : ∃ h2, height = h2 + 1 := ⟨height - 1, by omega⟩
    have e1 : (h2 + 1) * width = h2 * width + width := by ring
    unfold pixelOffset
    simp only [Nat.add_sub_cancel]
    omega

/-- Witness for C7 on a 2×2 display: drawing at `(1, 1)` stores the
blue byte at offset `(1 * 2 + 1) * 4 = 12` of the 16-byte buffer. -/
theorem draw_pixel_offset_store_witness :
    (draw_pixel 2 (List.replicate 16 9) 1 1 10 20 30).getD
        (pixelOffset 2 1 1) 0 =
      (toNeBytes (pixelValue 10 20 30)).getD 0 0 := by
  have h := draw_pixel_offset_store 2 2 1 1 10 20 30 (List.replicate 16 9)
    (by decide) (by decide) (by decide)
  simpa using h.2.1 0 (by decide)

/-- Claim C10: for byte-sized channels, the packed pixel is the 32-bit
value `(r << 16) | (g << 8) | b`, whose native-endian (little-endian)
byte image is `[b, g, r, 0]` — so the channel order is fixed in code and
the most significant (alpha) byte is always 0. -/
theorem pixelValue_layout (r g b : Nat) (hr : r < 256) (hg : g < 256)
    (hb : b < 256) :
    pixelValue r g b = r * 65536 + g * 256 + b ∧
    toNeBytes (pixelValue r g b) = [b, g, r, 0] := by
  have h := pixelValue_eq r g b hg hb
  refine ⟨h, ?_⟩
  unfold toNeBytes
  rw [h]
  have e1 : (r * 65536 + g * 256 + b) % 256 = b := by omega
  have e2 : (r * 65536 + g * 256 + b) / 256 % 256 = g := by omega
  have e3 : (r * 65536 + g * 256 + b) / 65536 % 256 = r := by omega
  have e4 : (r * 65536 + g * 256 + b) / 16777216 % 256 = 0 := by omega
  rw [e1, e2, e3, e4]

/-- Witness for C10 at the concrete colour (10, 20, 30). -/
theorem pixelValue_layout_witness :
    (10 : Nat) < 256 ∧
      (pixelValue 10 20 30 = 10 * 65536 + 20 * 256 + 30 ∧
        toNeBytes (pixelValue 10 20 30) = [30, 20, 10, 0]) :=
  ⟨by decide, pixelValue_layout 10 20 30 (by decide) (by decide) (by decide)⟩

end OsTerminalBare
